import Mathlib

/-!
Verification development for the `multithread_stl` library.

We give a shallow embedding of the three components of the library and prove
(or refute) the specified properties against it:

* `mt::sort` (src/sort.hpp): the recursive two-pass-partition quicksort that a
  thread pool executes.  Scheduling is commutative here: every task only
  mutates its own sub-range, so the net effect of the task tree is the
  sequential recursion embedded below (`mt.quick_sort`).
* `mt::unique` (src/unique.hpp): chunked adjacent-duplicate removal followed by
  a sequential boundary merge.  Reads of unspecified or out-of-range array
  positions are modelled as `none`.
* `mt::thread_pool` (src/thread_pool.hpp): modelled as a small-step transition
  system, one atomic transition per lock-protected critical section of the
  C++ code (every shared field of the pool is touched only under
  `queue_mutex`).  Condition-variable wake-ups are modelled as notifications
  (no spurious wake-ups); worker wake-ups are allowed at any time, which
  over-approximates `notify_one` and is sound for the safety properties
  proved here.
-/

namespace mt

/-! ## Embedding of src/sort.hpp -/

variable {α : Type}

/-- First `std::partition` pass of `quick_sort` (sort.hpp:83-84): the elements
`em` of the range with `cmp em pivot` (strictly before the pivot).
`std::partition` is specified only up to which elements land in each section;
we realize it with the order-preserving `List.partition`. -/
def ltSection (cmp : α → α → Bool) (pivot : α) (l : List α) : List α :=
  (l.partition (fun em => cmp em pivot)).1

/-- The remainder `[middle1, end)` after the first partition pass. -/
def restSection (cmp : α → α → Bool) (pivot : α) (l : List α) : List α :=
  (l.partition (fun em => cmp em pivot)).2

/-- Second `std::partition` pass (sort.hpp:85-86), over `[middle1, end)` with
predicate `!cmp(pivot, em)`: the equal-to-pivot section `[middle1, middle2)`. -/
def midSection (cmp : α → α → Bool) (pivot : α) (l : List α) : List α :=
  ((restSection cmp pivot l).partition (fun em => !cmp pivot em)).1

/-- The section `[middle2, end)` strictly after the pivot. -/
def gtSection (cmp : α → α → Bool) (pivot : α) (l : List α) : List α :=
  ((restSection cmp pivot l).partition (fun em => !cmp pivot em)).2

/-- The recursive task body `quick_sort` of `mt::sort` (sort.hpp:76-92).

The task tree is executed by the pool; since each task touches only its own
sub-range, the tree's net effect is this sequential recursion.  The `fuel`
argument bounds the recursion depth so the function is total in Lean; when
`cmp` is a strict weak order, fuel `l.length` is sufficient (each partition
step loses at least the pivot into the middle section), which matches the
C++ recursion that terminates for exactly that reason.  `sz <= 1` returns the
range unchanged, `sz > chunk_size` partitions and recurses on the outer
sections, otherwise `std::sort(begin, end, cmp)` runs; we model `std::sort`'s
contract with `List.mergeSort` ordered by `fun a b => !cmp b a`. -/
def quick_sort (cmp : α → α → Bool) (chunk_size : Nat) : Nat → List α → List α
  | 0, l => l
  | fuel + 1, l =>
    if l.length ≤ 1 then l
    else if chunk_size < l.length then
      match l[l.length / 2]? with
      | none => l
      | some pivot =>
        quick_sort cmp chunk_size fuel (ltSection cmp pivot l)
          ++ midSection cmp pivot l
          ++ quick_sort cmp chunk_size fuel (gtSection cmp pivot l)
    else l.mergeSort (fun a b => !cmp b a)

/-- Embedding of `mt::sort` (sort.hpp:71-95).  `chunk_size` is
`std::distance(begin, end) / (threads_amount * 8)` (sort.hpp:73); with
`threads_amount = 0` this is a division by zero (undefined behaviour),
modelled as `none`.  Otherwise the pool executes the submitted task tree to
completion before the function returns (the pool destructor waits), so the
result is `quick_sort` of the whole range. -/
def sort (cmp : α → α → Bool) (threads_amount : Nat) (l : List α) :
    Option (List α) :=
  if threads_amount = 0 then none
  else some (quick_sort cmp (l.length / (threads_amount * 8)) l.length l)

/-- A strict weak order, the requirement `std::sort`/`mt::sort` place on the
comparison predicate: irreflexive, transitive, with transitive
incomparability. -/
structure IsSWO (cmp : α → α → Bool) : Prop where
  irrefl : ∀ a, cmp a a = false
  trans : ∀ a b c, cmp a b = true → cmp b c = true → cmp a c = true
  incomp_trans : ∀ a b c, cmp a b = false → cmp b a = false →
    cmp b c = false → cmp c b = false → cmp a c = false

/-- Which of the three partition sections an element falls into:
0 = strictly before the pivot, 1 = equivalent to the pivot, 2 = strictly
after the pivot. -/
def category (cmp : α → α → Bool) (pivot a : α) : Nat :=
  if cmp a pivot then 0 else if cmp pivot a then 2 else 1

/-! ## Embedding of src/unique.hpp -/

/-- Tail of `std::unique(_begin, _end)` (unique.hpp:68) once a first survivor
`prev` exists: drop elements equal to the last kept element, keep the rest.
Note the chunk-local pass compares with `operator==`, NOT with the caller's
predicate `p` — `p` is only consulted at chunk boundaries (unique.hpp:75). -/
def std_unique_from [DecidableEq α] (prev : α) : List α → List α
  | [] => []
  | x :: xs => if prev = x then std_unique_from prev xs else x :: std_unique_from x xs

/-- Model of `std::unique(_begin, _end)` over one chunk: keep the first
element of each run of `==`-equal adjacent elements. -/
def std_unique [DecidableEq α] : List α → List α
  | [] => []
  | x :: xs => x :: std_unique_from x xs

/-- The quotient `part_size = std::distance(begin, end) / threads_amount`
(unique.hpp:62).
In C++ `threads_amount = 0` divides by zero; in the embedding the quotient is
never consulted in that case (`uniqueRuns 0 _ = []` and `unique` returns
`none`). -/
def part_size (n threads_amount : Nat) : Nat := n / threads_amount

/-- Chunk `i` of the range (unique.hpp:65-67):
`[begin + part_size*i, begin + part_size*(i+1))`, except that the final chunk
runs to `end`. -/
def chunk (threads_amount : Nat) (l : List α) (i : Nat) : List α :=
  let ps := part_size l.length threads_amount
  let b := ps * i
  let e := if i = threads_amount - 1 then l.length else ps * (i + 1)
  (l.drop b).take (e - b)

/-- The concurrent executions launched by `mt::unique` (unique.hpp:64-69): one
`std::async` per loop iteration, i.e. exactly `threads_amount` of them
regardless of the range's length; execution `i` applies `std::unique` to chunk
`i` and its result is the chunk's surviving prefix. -/
def uniqueRuns [DecidableEq α] (threads_amount : Nat) (l : List α) :
    List (List α) :=
  (List.range threads_amount).map (fun i => std_unique (chunk threads_amount l i))

/-- One iteration of the sequential merge loop (unique.hpp:72-78): `acc` is
the compacted prefix `[begin, last)`, `r` the surviving prefix of the next
chunk.  The code reads `*_begin` (the chunk's first survivor) and
`*(last - 1)` (the last compacted element); if either position does not hold a
survivor — empty chunk, or empty compacted prefix — the C++ reads an
unspecified or out-of-range array cell, modelled as `none`.  Otherwise the
chunk's survivors are copied after `acc`, skipping the first one when `p`
relates it to the last compacted element (a duplicate straddling the chunk
boundary). -/
def mergeStep (p : α → α → Bool) (acc r : List α) : Option (List α) :=
  match r.head?, acc.getLast? with
  | some h, some t => some (acc ++ (if p h t then r.tail else r))
  | _, _ => none

/-- Embedding of `mt::unique` (unique.hpp:59-80): run the per-chunk
executions, then merge
their results left to right starting from chunk 0's surviving prefix
(`threads[0].get()`, unique.hpp:71).  `threads_amount = 0` divides by zero at
unique.hpp:62 and indexes an empty vector at unique.hpp:71 — modelled as
`none`. -/
def unique [DecidableEq α] (p : α → α → Bool) (threads_amount : Nat)
    (l : List α) : Option (List α) :=
  match uniqueRuns threads_amount l with
  | [] => none
  | r0 :: rs => rs.foldlM (mergeStep p) r0

/-! ## Embedding of src/thread_pool.hpp

The pool is modelled as a transition system.  Every shared field
(`task_queue`, `active`, `shutdown_request`, and the condition variables) is
accessed by the C++ code inside critical sections of the single
`queue_mutex`, so one transition per critical section gives a faithful
interleaving semantics.  The one exception in the source is the destructor's
unlocked write `shutdown_request = true` (thread_pool.hpp:71); the model
performs it atomically, which is an idealization (the unsynchronized write is
a data race in C++, but one that can only delay worker wake-up, not violate
the safety properties proved here).

Threads: `threads_amount` workers plus one owner thread (the thread that
constructed the pool — it pushes tasks, calls `wait()` and runs the
destructor, exactly the usage in `mt::sort` and the tests).  Tasks are
abstract: a task has an identifier, the two bound argument values
(`std::bind` copies them at submission, thread_pool.hpp:92), a flag saying
whether its execution throws, and while running it may submit further tasks
(recursive fan-out).  Worker wake-ups from `queue_cv` are allowed at any
time, over-approximating `notify_one`/`notify_all`; `wait_cv` wake-ups happen
exactly at `notify_all` (thread_pool.hpp:144), i.e. condition variables are
modelled without spurious wake-ups. -/

/-- A submitted task: identifier (submission order), the two argument values
captured by `std::bind` at `push` time, and whether its execution throws. -/
structure Task where
  id : Nat
  arg0 : Nat
  arg1 : Nat
  throws : Bool
deriving DecidableEq, Repr

/-- Status of the owner thread with respect to the pool. -/
inductive MStatus where
  /-- Not inside any blocking pool call; may push, wait, or destruct. -/
  | idle
  /-- Blocked in `wait_cv.wait` inside `wait()` (thread_pool.hpp:98); `n` is
  the number of tasks submitted before the call. -/
  | waitBlocked (n : Nat)
  /-- Blocked in the destructor's internal `wait()` (thread_pool.hpp:68). -/
  | dtorBlocked
  /-- The destructor's internal `wait()` has returned. -/
  | dtorWaited
  /-- The destructor has set `shutdown_request` and called
  `queue_cv.notify_all()` (thread_pool.hpp:71-74). -/
  | dtorSignaled
  /-- Destruction is complete: the member `std::future`s have been destroyed,
  which blocks until every worker thread has finished. -/
  | done
deriving DecidableEq, Repr

/-- State of the pool: worker counts by status, plus the shared fields of
`mt::thread_pool` and history/bookkeeping fields (`nextId`, `pushed`,
`completed`, `failed`) used to state the properties. -/
structure thread_pool where
  /-- Workers blocked in `queue_cv.wait` (thread_pool.hpp:152) or not yet
  through their first loop iteration. -/
  nWaiting : Nat
  /-- One entry per worker currently between the unlock and the re-lock
  around `task()` (thread_pool.hpp:136-138): the task it is executing. -/
  running : List Task
  /-- Workers that returned normally after observing `shutdown_request`
  (thread_pool.hpp:148). -/
  nExited : Nat
  /-- Workers whose task threw: the exception propagates out of `worker()`
  (no handler around `task()` at thread_pool.hpp:137), ending the thread. -/
  nCrashed : Nat
  /-- The `task_queue` field. -/
  task_queue : List Task
  /-- The `active` counter. -/
  active : Nat
  /-- The `shutdown_request` flag. -/
  shutdown_request : Bool
  /-- Next task identifier = number of submissions so far. -/
  nextId : Nat
  /-- History: all tasks ever submitted, in submission order. -/
  pushed : List Task
  /-- History: all tasks whose execution ran to completion. -/
  completed : List Task
  /-- History: all tasks whose execution threw. -/
  failed : List Task
  /-- The owner thread's status. -/
  owner : MStatus
deriving DecidableEq, Repr

/-- Effect of `wait_cv.notify_all()` (thread_pool.hpp:144) on the owner: a
blocked `wait()` (or the destructor's internal `wait()`) wakes up and —
since `wait()` re-checks nothing after `wait_cv.wait` returns
(thread_pool.hpp:95-100) — returns. -/
def notifyAll : MStatus → MStatus
  | .waitBlocked _ => .idle
  | .dtorBlocked => .dtorWaited
  | m => m

/-- The pool right after the constructor (thread_pool.hpp:60-65):
`threads_amount` workers about to enter their run loop, empty queue, zero
`active`, shutdown flag clear.  No validation of `threads_amount` is
performed by the constructor. -/
def thread_pool.init (threads_amount : Nat) : thread_pool where
  nWaiting := threads_amount
  running := []
  nExited := 0
  nCrashed := 0
  task_queue := []
  active := 0
  shutdown_request := false
  nextId := 0
  pushed := []
  completed := []
  failed := []
  owner := .idle

/-- One atomic step of the pool: each constructor is one critical section of
the C++ code (or one task execution boundary). -/
inductive Step : thread_pool → thread_pool → Prop where
  /-- Owner calls `push`/`add` (thread_pool.hpp:90-93, 111-122):
  bind the arguments, append the task to the queue, `notify_one`.  The only
  guard is the lock; the pool's state never blocks a submission. -/
  | push (s : thread_pool) (a0 a1 : Nat) (thr : Bool) (h : s.owner = .idle) :
      Step s { s with
        task_queue := s.task_queue ++ [⟨s.nextId, a0, a1, thr⟩],
        pushed := s.pushed ++ [⟨s.nextId, a0, a1, thr⟩],
        nextId := s.nextId + 1 }
  /-- The owner's `wait()` finds the pool non-quiescent and blocks on `wait_cv`
  (thread_pool.hpp:97-98).  (If the pool is quiescent, `wait()` returns
  immediately without changing any state.) -/
  | waitCall (s : thread_pool) (h : s.owner = .idle)
      (hq : ¬(s.task_queue = [] ∧ s.active = 0)) :
      Step s { s with owner := .waitBlocked s.nextId }
  /-- A blocked worker wakes (thread_pool.hpp:152 returns), increments
  `active` (hpp:129), finds the queue non-empty, pops the front task and
  releases the lock to run it (hpp:130-136). -/
  | wakeRun (s : thread_pool) (t : Task) (rest : List Task)
      (hw : 1 ≤ s.nWaiting) (hq : s.task_queue = t :: rest) :
      Step s { s with
        nWaiting := s.nWaiting - 1,
        running := t :: s.running,
        task_queue := rest,
        active := s.active + 1 }
  /-- A blocked worker wakes with an empty queue: `active++` (hpp:129), the
  drain loop is skipped, `active--` (hpp:140); if `active` is now zero it
  calls `wait_cv.notify_all()` (hpp:143-145); then it exits if
  `shutdown_request` is set (hpp:147-149), else re-blocks (hpp:152). -/
  | wakeIdle (s : thread_pool) (hw : 1 ≤ s.nWaiting) (hq : s.task_queue = []) :
      Step s { s with
        owner := if s.active = 0 then notifyAll s.owner else s.owner,
        nWaiting := if s.shutdown_request then s.nWaiting - 1 else s.nWaiting,
        nExited := if s.shutdown_request then s.nExited + 1 else s.nExited }
  /-- A worker finishes its task normally, re-locks (hpp:138), finds the
  queue non-empty and pops the next task (hpp:130-136).  `active` is
  unchanged across this section. -/
  | finishRun (s : thread_pool) (t u : Task) (l1 l2 rest : List Task)
      (hr : s.running = l1 ++ t :: l2) (ht : t.throws = false)
      (hq : s.task_queue = u :: rest) :
      Step s { s with
        running := u :: (l1 ++ l2),
        completed := s.completed ++ [t],
        task_queue := rest }
  /-- A worker finishes its task normally, re-locks, finds the queue empty:
  `active--` (hpp:140), `notify_all` on `wait_cv` if `active` reached zero
  (hpp:143-145), exit on shutdown else re-block (hpp:147-152). -/
  | finishIdle (s : thread_pool) (t : Task) (l1 l2 : List Task)
      (hr : s.running = l1 ++ t :: l2) (ht : t.throws = false)
      (hq : s.task_queue = []) :
      Step s { s with
        running := l1 ++ l2,
        completed := s.completed ++ [t],
        active := s.active - 1,
        owner := if s.active - 1 = 0 then notifyAll s.owner else s.owner,
        nWaiting := if s.shutdown_request then s.nWaiting else s.nWaiting + 1,
        nExited := if s.shutdown_request then s.nExited + 1 else s.nExited }
  /-- A running task submits a further task through `push` (recursive
  fan-out, as `quick_sort` does): same effect as an owner `push`. -/
  | taskSubmit (s : thread_pool) (a0 a1 : Nat) (thr : Bool)
      (hr : s.running ≠ []) :
      Step s { s with
        task_queue := s.task_queue ++ [⟨s.nextId, a0, a1, thr⟩],
        pushed := s.pushed ++ [⟨s.nextId, a0, a1, thr⟩],
        nextId := s.nextId + 1 }
  /-- A worker's task throws.  `task()` at thread_pool.hpp:137 has no
  handler, so the exception unwinds `worker()`: the thread ends (the
  exception is stored in the `std::async` future and never rethrown), and
  the `active` counter is NEVER decremented — the stack unwinding skips
  hpp:140.  (The unwinding also destroys the `unique_lock` even though the
  mutex was released manually at hpp:136, a further defect not modelled.) -/
  | taskThrow (s : thread_pool) (t : Task) (l1 l2 : List Task)
      (hr : s.running = l1 ++ t :: l2) (ht : t.throws = true) :
      Step s { s with
        running := l1 ++ l2,
        failed := s.failed ++ [t],
        nCrashed := s.nCrashed + 1 }
  /-- The destructor's internal `wait()` (thread_pool.hpp:68) finds the pool
  non-quiescent and blocks. -/
  | dtorBlock (s : thread_pool) (h : s.owner = .idle)
      (hq : ¬(s.task_queue = [] ∧ s.active = 0)) :
      Step s { s with owner := .dtorBlocked }
  /-- The destructor's internal `wait()` returns immediately: the pool is
  quiescent. -/
  | dtorImmediate (s : thread_pool) (h : s.owner = .idle)
      (hq : s.task_queue = []) (ha : s.active = 0) :
      Step s { s with owner := .dtorWaited }
  /-- The destructor sets `shutdown_request` and wakes all workers
  (thread_pool.hpp:71-74). -/
  | dtorSignal (s : thread_pool) (h : s.owner = .dtorWaited) :
      Step s { s with shutdown_request := true, owner := .dtorSignaled }
  /-- Destruction of the `threads` member: each `std::future` obtained from
  `std::async` blocks in its destructor until its thread has finished, so
  this step is enabled only when no worker is still waiting or running. -/
  | dtorJoin (s : thread_pool) (h : s.owner = .dtorSignaled)
      (hw : s.nWaiting = 0) (hr : s.running = []) :
      Step s { s with owner := .done }

/-- States reachable from a freshly constructed pool of `threads_amount`
workers. -/
inductive Reachable (threads_amount : Nat) : thread_pool → Prop where
  | refl : Reachable threads_amount (thread_pool.init threads_amount)
  | tail {s s' : thread_pool} : Reachable threads_amount s → Step s s' →
      Reachable threads_amount s'

/-- The inductive invariant of the pool. -/
structure Inv (s : thread_pool) : Prop where
  /-- Every submitted task is in exactly one place: completed, failed,
  queued, or running. -/
  perm : s.pushed.Perm (s.completed ++ s.failed ++ s.task_queue ++ s.running)
  /-- Field `active` counts the running workers — plus the crashed ones,
  whose unwound `worker()` never decremented it. -/
  act : s.active = s.running.length + s.nCrashed
  /-- One failed task per crashed worker. -/
  crash : s.failed.length = s.nCrashed
  /-- Tasks are numbered in submission order. -/
  ids : s.pushed.map Task.id = List.range s.nextId
  /-- After the destructor's internal `wait()` has returned, the pool is and
  stays quiescent. -/
  dtor : (s.owner = .dtorWaited ∨ s.owner = .dtorSignaled ∨ s.owner = .done) →
    s.task_queue = [] ∧ s.active = 0
  /-- Teardown completes only once no worker is blocked waiting. -/
  sdone : s.owner = .done → s.nWaiting = 0
  /-- The shutdown flag is set from the signalling step on. -/
  sflag : (s.owner = .dtorSignaled ∨ s.owner = .done) →
    s.shutdown_request = true

/-! ### Concrete execution traces

Small concrete runs of the pool model, used to instantiate the theorems:
`wtrace*` — one worker, one task `(123, 456)` (the values of test
scenario B in `mt_test.cpp`), a `wait()` that blocks and is released;
`dtrace*` — one worker, immediate destruction;
`ctrace*` — one worker, one throwing task. -/

/-- The task of the `wtrace` run: `push(f, 123, 456)`. -/
def wtask : Task where
  id := 0
  arg0 := 123
  arg1 := 456
  throws := false

/-- State after `push(f, 123, 456)` on a fresh one-worker pool. -/
def wtrace1 : thread_pool where
  nWaiting := 1
  running := []
  nExited := 0
  nCrashed := 0
  task_queue := [wtask]
  active := 0
  shutdown_request := false
  nextId := 1
  pushed := [wtask]
  completed := []
  failed := []
  owner := .idle

/-- State after the owner's `wait()` blocked (the queue is non-empty). -/
def wtrace2 : thread_pool :=
  { wtrace1 with owner := .waitBlocked 1 }

/-- State after the worker woke and popped the task to run it. -/
def wtrace3 : thread_pool :=
  { wtrace2 with nWaiting := 0, running := [wtask], task_queue := [], active := 1 }

/-- State after the task completed: `active` fell to zero, `wait_cv` was
notified, the owner's `wait()` returned, the worker re-blocked. -/
def wtrace4 : thread_pool where
  nWaiting := 1
  running := []
  nExited := 0
  nCrashed := 0
  task_queue := []
  active := 0
  shutdown_request := false
  nextId := 1
  pushed := [wtask]
  completed := [wtask]
  failed := []
  owner := .idle

/-- State after the destructor's internal `wait()` returned on a fresh
one-worker pool (quiescent, so immediately). -/
def dtrace1 : thread_pool :=
  { thread_pool.init 1 with owner := .dtorWaited }

/-- State after the destructor set `shutdown_request` and notified. -/
def dtrace2 : thread_pool :=
  { dtrace1 with shutdown_request := true, owner := .dtorSignaled }

/-- State after the worker woke, saw the empty queue and the shutdown flag,
and exited. -/
def dtrace3 : thread_pool :=
  { dtrace2 with nWaiting := 0, nExited := 1 }

/-- State after the member futures were destroyed (joining the worker):
destruction complete. -/
def dtrace4 : thread_pool :=
  { dtrace3 with owner := .done }

/-- The throwing task of the `ctrace` run. -/
def ctask : Task where
  id := 0
  arg0 := 0
  arg1 := 0
  throws := true

/-- State after pushing a throwing task on a fresh one-worker pool. -/
def ctrace1 : thread_pool where
  nWaiting := 1
  running := []
  nExited := 0
  nCrashed := 0
  task_queue := [ctask]
  active := 0
  shutdown_request := false
  nextId := 1
  pushed := [ctask]
  completed := []
  failed := []
  owner := .idle

/-- State after the worker popped the throwing task to run it. -/
def ctrace2 : thread_pool :=
  { ctrace1 with nWaiting := 0, running := [ctask], task_queue := [], active := 1 }

/-- State after the task threw: the exception unwound `worker()`, the worker
thread is gone, and `active` is still 1 although nothing is queued or
running — the pool can never again become quiescent. -/
def ctrace3 : thread_pool where
  nWaiting := 0
  running := []
  nExited := 0
  nCrashed := 1
  task_queue := []
  active := 1
  shutdown_request := false
  nextId := 1
  pushed := [ctask]
  completed := []
  failed := [ctask]
  owner := .idle

theorem IsSWO.asymm {cmp : α → α → Bool} (h : IsSWO cmp) {a b : α}
    (hab : cmp a b = true) : cmp b a = false := by
  by_contra hba
  have hba : cmp b a = true := by
    cases hh : cmp b a with
    | false => exact absurd hh hba
    | true => rfl
  have := h.trans a b a hab hba
  rw [h.irrefl a] at this
  exact Bool.false_ne_true this

/-- In a strict weak order, `a < b` implies for any `c` that `a < c` or
`c < b`. -/
theorem IsSWO.cross {cmp : α → α → Bool} (h : IsSWO cmp) {a b : α}
    (hab : cmp a b = true) (c : α) : cmp a c = true ∨ cmp c b = true := by
  by_contra hcon
  push_neg at hcon
  obtain ⟨hac, hcb⟩ := hcon
  have hac : cmp a c = false := Bool.eq_false_iff.mpr hac
  have hcb : cmp c b = false := Bool.eq_false_iff.mpr hcb
  have hca : cmp c a = false := by
    cases hh : cmp c a with
    | false => rfl
    | true =>
      have := h.trans c a b hh hab
      rw [hcb] at this
      exact absurd this Bool.false_ne_true
  have hbc : cmp b c = false := by
    cases hh : cmp b c with
    | false => rfl
    | true =>
      have := h.trans a b c hab hh
      rw [hac] at this
      exact absurd this Bool.false_ne_true
  have := h.incomp_trans a c b hac hca hcb hbc
  rw [hab] at this
  exact Bool.false_ne_true this.symm

theorem IsSWO.le_trans {cmp : α → α → Bool} (h : IsSWO cmp) {a b c : α}
    (hba : cmp b a = false) (hcb : cmp c b = false) : cmp c a = false := by
  cases hh : cmp c a with
  | false => rfl
  | true =>
    rcases h.cross hh b with h1 | h1
    · rw [hcb] at h1; exact absurd h1 Bool.false_ne_true
    · rw [hba] at h1; exact absurd h1 Bool.false_ne_true

theorem IsSWO.le_total {cmp : α → α → Bool} (h : IsSWO cmp) (a b : α) :
    cmp a b = false ∨ cmp b a = false := by
  cases hh : cmp a b with
  | false => exact Or.inl rfl
  | true => exact Or.inr (h.asymm hh)

theorem ltSection_eq_filter (cmp : α → α → Bool) (pivot : α) (l : List α) :
    ltSection cmp pivot l = l.filter (fun em => cmp em pivot) := by
  simp [ltSection, List.partition_eq_filter_filter]

theorem restSection_eq_filter (cmp : α → α → Bool) (pivot : α) (l : List α) :
    restSection cmp pivot l = l.filter (fun em => !cmp em pivot) := by
  simp only [restSection, List.partition_eq_filter_filter]
  exact List.filter_congr (fun a _ => rfl)

theorem midSection_eq_filter (cmp : α → α → Bool) (pivot : α) (l : List α) :
    midSection cmp pivot l = l.filter (fun em => (!cmp pivot em) && !cmp em pivot) := by
  simp [midSection, List.partition_eq_filter_filter, restSection_eq_filter,
    List.filter_filter]

theorem gtSection_eq_filter (cmp : α → α → Bool) (pivot : α) (l : List α) :
    gtSection cmp pivot l = l.filter (fun em => (cmp pivot em) && !cmp em pivot) := by
  simp only [gtSection, List.partition_eq_filter_filter, restSection_eq_filter,
    List.filter_filter]
  exact List.filter_congr (by intro a _; simp [Function.comp])

theorem mem_ltSection {cmp : α → α → Bool} {pivot a : α} {l : List α} :
    a ∈ ltSection cmp pivot l ↔ a ∈ l ∧ cmp a pivot = true := by
  simp [ltSection_eq_filter, List.mem_filter]

theorem mem_midSection {cmp : α → α → Bool} {pivot a : α} {l : List α} :
    a ∈ midSection cmp pivot l ↔ a ∈ l ∧ cmp pivot a = false ∧ cmp a pivot = false := by
  simp [midSection_eq_filter, List.mem_filter]

theorem mem_gtSection {cmp : α → α → Bool} {pivot a : α} {l : List α} :
    a ∈ gtSection cmp pivot l ↔ a ∈ l ∧ cmp pivot a = true ∧ cmp a pivot = false := by
  simp [gtSection_eq_filter, List.mem_filter]

/-- The two partition passes only rearrange the range: the three sections
together are a permutation of it. -/
theorem sections_perm (cmp : α → α → Bool) (pivot : α) (l : List α) :
    (ltSection cmp pivot l ++ (midSection cmp pivot l ++ gtSection cmp pivot l)).Perm l := by
  have h1 : (midSection cmp pivot l ++ gtSection cmp pivot l).Perm (restSection cmp pivot l) := by
    have := List.filter_append_perm (fun em => !cmp pivot em) (restSection cmp pivot l)
    refine List.Perm.trans ?_ this
    apply List.Perm.append
    · rw [midSection]
      simp [List.partition_eq_filter_filter]
    · rw [gtSection]
      simp only [List.partition_eq_filter_filter]
      exact List.Perm.of_eq (List.filter_congr (by intro a _; rfl))
  have h2 : (ltSection cmp pivot l ++ restSection cmp pivot l).Perm l := by
    rw [ltSection_eq_filter, restSection_eq_filter]
    exact List.filter_append_perm _ l
  exact ((h1.append_left (ltSection cmp pivot l)).trans h2)

/-- The pivot value is an element of the middle section: it is equal to an
element of the range and `cmp` is irreflexive, so neither partition pass moves
it out.  This is what makes the recursion well-founded. -/
theorem pivot_mem_midSection {cmp : α → α → Bool} {pivot : α} {l : List α}
    (hirr : cmp pivot pivot = false) (hmem : pivot ∈ l) :
    pivot ∈ midSection cmp pivot l :=
  mem_midSection.mpr ⟨hmem, hirr, hirr⟩

theorem sections_length {cmp : α → α → Bool} {pivot : α} {l : List α} :
    (ltSection cmp pivot l).length + ((midSection cmp pivot l).length
      + (gtSection cmp pivot l).length) = l.length := by
  have := (sections_perm cmp pivot l).length_eq
  simpa using this

theorem ltSection_length_lt {cmp : α → α → Bool} {pivot : α} {l : List α}
    (hirr : cmp pivot pivot = false) (hmem : pivot ∈ l) :
    (ltSection cmp pivot l).length < l.length := by
  have hmid : 0 < (midSection cmp pivot l).length :=
    List.length_pos.mpr (List.ne_nil_of_mem (pivot_mem_midSection hirr hmem))
  have := @sections_length _ cmp pivot l
  omega

theorem gtSection_length_lt {cmp : α → α → Bool} {pivot : α} {l : List α}
    (hirr : cmp pivot pivot = false) (hmem : pivot ∈ l) :
    (gtSection cmp pivot l).length < l.length := by
  have hmid : 0 < (midSection cmp pivot l).length :=
    List.length_pos.mpr (List.ne_nil_of_mem (pivot_mem_midSection hirr hmem))
  have := @sections_length _ cmp pivot l
  omega

/-- Main lemma for `quick_sort`: with fuel at least the length of the range
and a strict weak order `cmp`, the result is a permutation of the range and
pairwise non-decreasing (`cmp b a = false` for `a` before `b`). -/
theorem quick_sort_perm_pairwise {cmp : α → α → Bool} (h : IsSWO cmp) (c : Nat) :
    ∀ (fuel : Nat) (l : List α), l.length ≤ fuel →
      (quick_sort cmp c fuel l).Perm l ∧
      (quick_sort cmp c fuel l).Pairwise (fun a b => cmp b a = false) := by
  intro fuel
  induction fuel with
  | zero =>
    intro l hf
    have : l = [] := List.eq_nil_of_length_eq_zero (Nat.le_zero.mp hf)
    subst this
    exact ⟨List.Perm.refl _, List.Pairwise.nil⟩
  | succ fuel ih =>
    intro l hf
    by_cases h1 : l.length ≤ 1
    · refine ⟨by rw [quick_sort]; simp [h1], ?_⟩
      rw [quick_sort]; simp only [h1, if_true]
      match l, h1 with
      | [], _ => exact List.Pairwise.nil
      | [a], _ => exact List.pairwise_singleton _ a
    · by_cases h2 : c < l.length
      · have hidx : l.length / 2 < l.length := Nat.div_lt_self (by omega) (by omega)
        have hp : l[l.length / 2]? = some l[l.length / 2] := List.getElem?_eq_getElem hidx
        set pivot := l[l.length / 2] with hpiv
        have hpl : pivot ∈ l := List.getElem_mem hidx
        have hirr : cmp pivot pivot = false := h.irrefl pivot
        have heq : quick_sort cmp c (fuel + 1) l =
            quick_sort cmp c fuel (ltSection cmp pivot l)
              ++ midSection cmp pivot l
              ++ quick_sort cmp c fuel (gtSection cmp pivot l) := by
          rw [quick_sort]
          simp only [if_neg h1, if_pos h2, hp]
        have hltf : (ltSection cmp pivot l).length ≤ fuel := by
          have := ltSection_length_lt hirr hpl
          omega
        have hgtf : (gtSection cmp pivot l).length ≤ fuel := by
          have := gtSection_length_lt hirr hpl
          omega
        obtain ⟨permlt, pwlt⟩ := ih (ltSection cmp pivot l) hltf
        obtain ⟨permgt, pwgt⟩ := ih (gtSection cmp pivot l) hgtf
        constructor
        · rw [heq]
          have : (quick_sort cmp c fuel (ltSection cmp pivot l) ++ midSection cmp pivot l
              ++ quick_sort cmp c fuel (gtSection cmp pivot l)).Perm
              (ltSection cmp pivot l ++ midSection cmp pivot l ++ gtSection cmp pivot l) :=
            ((permlt.append (List.Perm.refl _)).append permgt)
          refine this.trans ?_
          rw [List.append_assoc]
          exact sections_perm cmp pivot l
        · rw [heq]
          -- memberships in the two recursively sorted sections
          have hmlt : ∀ a ∈ quick_sort cmp c fuel (ltSection cmp pivot l),
              cmp a pivot = true := by
            intro a ha
            exact (mem_ltSection.mp (permlt.mem_iff.mp ha)).2
          have hmgt : ∀ a ∈ quick_sort cmp c fuel (gtSection cmp pivot l),
              cmp pivot a = true ∧ cmp a pivot = false := by
            intro a ha
            exact (mem_gtSection.mp (permgt.mem_iff.mp ha)).2
          rw [List.pairwise_append]
          refine ⟨?_, pwgt, ?_⟩
          · rw [List.pairwise_append]
            refine ⟨pwlt, ?_, ?_⟩
            · -- the middle section is pairwise incomparable
              apply List.pairwise_of_forall_mem_list
              intro a ha b hb
              obtain ⟨-, hpa, hap⟩ := mem_midSection.mp ha
              obtain ⟨-, hpb, hbp⟩ := mem_midSection.mp hb
              exact h.incomp_trans b pivot a hbp hpb hpa hap
            · -- everything `< pivot` precedes everything equal to it
              intro a ha b hb
              obtain ⟨-, hpb, hbp⟩ := mem_midSection.mp hb
              have hap := hmlt a ha
              cases hh : cmp b a with
              | false => rfl
              | true =>
                have := h.trans b a pivot hh hap
                rw [hbp] at this
                exact absurd this Bool.false_ne_true
          · -- everything `< pivot` or equal to it precedes everything `> pivot`
            intro a ha b hb
            obtain ⟨hpb, hbp⟩ := hmgt b hb
            rcases List.mem_append.mp ha with ha | ha
            · have hap := hmlt a ha
              cases hh : cmp b a with
              | false => rfl
              | true =>
                have h3 := h.trans b a pivot hh hap
                have h4 := h.trans pivot b pivot hpb h3
                rw [h.irrefl pivot] at h4
                exact absurd h4 Bool.false_ne_true
            · obtain ⟨-, hpa, hap⟩ := mem_midSection.mp ha
              cases hh : cmp b a with
              | false => rfl
              | true =>
                have h3 := h.trans pivot b a hpb hh
                rw [hpa] at h3
                exact absurd h3 Bool.false_ne_true
      · -- base case: std::sort, modelled by mergeSort
        have heq : quick_sort cmp c (fuel + 1) l = l.mergeSort (fun a b => !cmp b a) := by
          rw [quick_sort]
          simp only [if_neg h1, if_neg h2]
        rw [heq]
        refine ⟨List.mergeSort_perm l _, ?_⟩
        have htr : ∀ (a b c : α), (!cmp b a) → (!cmp c b) → (!cmp c a) := by
          intro a b c hba hcb
          simp only [Bool.not_eq_true'] at *
          exact h.le_trans hba hcb
        have hto : ∀ (a b : α), (!cmp b a) || (!cmp a b) := by
          intro a b
          rcases h.le_total b a with hh | hh <;> simp [hh]
        have := List.sorted_mergeSort htr hto l
        exact this.imp (by intro a b hab; simpa using hab)

theorem category_le_two (cmp : α → α → Bool) (pivot a : α) :
    category cmp pivot a ≤ 2 := by
  unfold category
  split
  · omega
  · split <;> omega

/-- In a strict weak order, the section an element falls into is monotone
along a sorted list. -/
theorem category_monotone {cmp : α → α → Bool} (h : IsSWO cmp) {pivot a b : α}
    (hba : cmp b a = false) : category cmp pivot a ≤ category cmp pivot b := by
  unfold category
  by_cases hap : cmp a pivot = true
  · simp [hap]
  · have hap : cmp a pivot = false := Bool.eq_false_iff.mpr hap
    by_cases hbp : cmp b pivot = true
    · -- would need cmp b a = true
      exfalso
      by_cases hpa : cmp pivot a = true
      · have := h.trans b pivot a hbp hpa
        rw [hba] at this
        exact Bool.false_ne_true this
      · rcases h.cross hbp a with h1 | h1
        · rw [hba] at h1; exact Bool.false_ne_true h1
        · rw [hap] at h1; exact Bool.false_ne_true h1
    · have hbp : cmp b pivot = false := Bool.eq_false_iff.mpr hbp
      by_cases hpa : cmp pivot a = true
      · -- a is in the right section, so b must be as well
        by_cases hpb : cmp pivot b = true
        · simp [hap, hbp, hpa, hpb]
        · exfalso
          rcases h.cross hpa b with h1 | h1
          · exact hpb h1
          · rw [hba] at h1; exact Bool.false_ne_true h1
      · simp [hap, hbp, Bool.eq_false_iff.mpr hpa]
        split <;> omega

/-- Splitting a list whose elements carry a monotonically non-decreasing
three-valued label into the three label classes and re-concatenating them is
the identity. -/
theorem filter_three_classes (f : α → Nat) :
    ∀ l : List α, l.Pairwise (fun a b => f a ≤ f b) → (∀ a ∈ l, f a ≤ 2) →
      l.filter (fun a => f a == 0) ++ (l.filter (fun a => f a == 1)
        ++ l.filter (fun a => f a == 2)) = l := by
  intro l
  induction l with
  | nil => intro _ _; rfl
  | cons x xs ih =>
    intro hpw hle
    have hx := hle x (List.mem_cons_self x xs)
    have hxs : ∀ y ∈ xs, f x ≤ f y := (List.pairwise_cons.mp hpw).1
    have htl := ih (List.pairwise_cons.mp hpw).2 (fun a ha => hle a (List.mem_cons_of_mem x ha))
    by_cases h0 : f x = 0
    · rw [List.filter_cons_of_pos (by simp [h0]),
        List.filter_cons_of_neg (by simp [h0]),
        List.filter_cons_of_neg (by simp [h0])]
      simpa using htl
    · by_cases h1 : f x = 1
      · have hnil0 : xs.filter (fun a => f a == 0) = [] := by
          rw [List.filter_eq_nil_iff]
          intro a ha
          have := hxs a ha
          simp only [beq_iff_eq]
          omega
        rw [List.filter_cons_of_neg (by simp [h1]),
          List.filter_cons_of_pos (by simp [h1]),
          List.filter_cons_of_neg (by simp [h1]), hnil0]
        rw [hnil0] at htl
        simpa using htl
      · have h2 : f x = 2 := by omega
        have hnil0 : xs.filter (fun a => f a == 0) = [] := by
          rw [List.filter_eq_nil_iff]
          intro a ha
          have := hxs a ha
          simp only [beq_iff_eq]
          omega
        have hnil1 : xs.filter (fun a => f a == 1) = [] := by
          rw [List.filter_eq_nil_iff]
          intro a ha
          have := hxs a ha
          simp only [beq_iff_eq]
          omega
        rw [List.filter_cons_of_neg (by simp [h2]),
          List.filter_cons_of_neg (by simp [h2]),
          List.filter_cons_of_pos (by simp [h2]), hnil0, hnil1]
        rw [hnil0, hnil1] at htl
        simpa using htl

theorem ltSection_eq_class (cmp : α → α → Bool) (pivot : α) (l : List α) :
    ltSection cmp pivot l = l.filter (fun a => category cmp pivot a == 0) := by
  rw [ltSection_eq_filter]
  apply List.filter_congr
  intro a _
  unfold category
  cases hh : cmp a pivot <;> simp [hh]
  split <;> simp

theorem midSection_eq_class (cmp : α → α → Bool) (pivot : α) (l : List α) :
    midSection cmp pivot l = l.filter (fun a => category cmp pivot a == 1) := by
  rw [midSection_eq_filter]
  apply List.filter_congr
  intro a _
  unfold category
  cases h1 : cmp a pivot <;> cases h2 : cmp pivot a <;> simp [h1, h2]

theorem gtSection_eq_class (cmp : α → α → Bool) (pivot : α) (l : List α) :
    gtSection cmp pivot l = l.filter (fun a => category cmp pivot a == 2) := by
  rw [gtSection_eq_filter]
  apply List.filter_congr
  intro a _
  unfold category
  cases h1 : cmp a pivot <;> cases h2 : cmp pivot a <;> simp [h1, h2]

/-- On a sorted list the three partition sections are contiguous blocks in
order, so re-concatenating them is the identity. -/
theorem sections_eq_of_sorted {cmp : α → α → Bool} (h : IsSWO cmp) (pivot : α)
    {l : List α} (hs : l.Pairwise (fun a b => cmp b a = false)) :
    ltSection cmp pivot l ++ (midSection cmp pivot l ++ gtSection cmp pivot l) = l := by
  rw [ltSection_eq_class, midSection_eq_class, gtSection_eq_class]
  exact filter_three_classes (category cmp pivot) l
    (hs.imp (fun hab => category_monotone h hab))
    (fun a _ => category_le_two cmp pivot a)

/-- Applying `quick_sort` to an already-sorted range returns it unchanged. -/
theorem quick_sort_of_sorted {cmp : α → α → Bool} (h : IsSWO cmp) (c : Nat) :
    ∀ (fuel : Nat) (l : List α), l.length ≤ fuel →
      l.Pairwise (fun a b => cmp b a = false) →
      quick_sort cmp c fuel l = l := by
  intro fuel
  induction fuel with
  | zero => intro l _ _; rfl
  | succ fuel ih =>
    intro l hf hs
    by_cases h1 : l.length ≤ 1
    · rw [quick_sort]; simp [h1]
    · by_cases h2 : c < l.length
      · have hidx : l.length / 2 < l.length := Nat.div_lt_self (by omega) (by omega)
        have hp : l[l.length / 2]? = some l[l.length / 2] := List.getElem?_eq_getElem hidx
        set pivot := l[l.length / 2] with hpiv
        have hpl : pivot ∈ l := List.getElem_mem hidx
        have hirr : cmp pivot pivot = false := h.irrefl pivot
        have hltf : (ltSection cmp pivot l).length ≤ fuel := by
          have := ltSection_length_lt hirr hpl
          omega
        have hgtf : (gtSection cmp pivot l).length ≤ fuel := by
          have := gtSection_length_lt hirr hpl
          omega
        have hslt : (ltSection cmp pivot l).Pairwise (fun a b => cmp b a = false) := by
          rw [ltSection_eq_filter]; exact hs.filter _
        have hsgt : (gtSection cmp pivot l).Pairwise (fun a b => cmp b a = false) := by
          rw [gtSection_eq_filter]; exact hs.filter _
        rw [quick_sort]
        simp only [if_neg h1, if_pos h2, hp]
        rw [ih _ hltf hslt, ih _ hgtf hsgt, List.append_assoc]
        exact sections_eq_of_sorted h pivot hs
      · rw [quick_sort]
        simp only [if_neg h1, if_neg h2]
        apply List.mergeSort_of_sorted
        exact hs.imp (by intro a b hab; simpa using hab)

/-- The comparator `fun a b => decide (a < b)` on `Nat` — as in the
repository's tests (`std::less` on `uint32_t`) — is a strict weak order. -/
theorem nat_lt_swo : IsSWO (fun a b : Nat => decide (a < b)) := by
  constructor
  · intro a; simp
  · intro a b c h1 h2; simp only [decide_eq_true_eq] at *; omega
  · intro a b c h1 h2 h3 h4; simp only [decide_eq_false_iff_not] at *; omega

/-! ## Worker pool invariants -/

theorem notifyAll_eq_done {m : MStatus} (h : notifyAll m = .done) : m = .done := by
  cases m <;> simp_all [notifyAll]

theorem notifyAll_eq_dtorSignaled {m : MStatus}
    (h : notifyAll m = .dtorSignaled) : m = .dtorSignaled := by
  cases m <;> simp_all [notifyAll]

theorem Inv.init (threads_amount : Nat) : Inv (thread_pool.init threads_amount) := by
  constructor <;> simp [thread_pool.init]

theorem Inv.step {s s' : thread_pool} (hi : Inv s) (h : Step s s') : Inv s' := by
  obtain ⟨hperm, hact, hcrash, hids, hdtor, hsdone, hsflag⟩ := hi
  cases h with
  | push a0 a1 thr hown =>
    refine ⟨?_, hact, hcrash, ?_, ?_, ?_, ?_⟩
    · dsimp only
      rw [← Multiset.coe_eq_coe] at hperm ⊢
      simp only [← Multiset.coe_add, ← Multiset.cons_coe,
        ← Multiset.singleton_add] at hperm ⊢
      rw [hperm]; abel
    · dsimp only
      simp [hids, List.range_succ]
    · intro hc; rw [hown] at hc; simp at hc
    · intro hc; rw [hown] at hc; simp at hc
    · intro hc; rw [hown] at hc; simp at hc
  | waitCall hown hq =>
    refine ⟨hperm, hact, hcrash, hids, ?_, ?_, ?_⟩
    · intro hc; simp at hc
    · intro hc; simp at hc
    · intro hc; simp at hc
  | wakeRun t rest hw hq =>
    rw [hq] at hperm
    refine ⟨?_, ?_, hcrash, hids, ?_, ?_, ?_⟩
    · dsimp only
      rw [← Multiset.coe_eq_coe] at hperm ⊢
      simp only [← Multiset.coe_add, ← Multiset.cons_coe,
        ← Multiset.singleton_add] at hperm ⊢
      rw [hperm]; abel
    · dsimp only
      simp only [List.length_cons]
      omega
    · intro hc
      exact absurd (hdtor hc).1 (by simp [hq])
    · intro hc
      have := hsdone hc
      omega
    · intro hc; exact hsflag hc
  | wakeIdle hw hq =>
    refine ⟨hperm, hact, hcrash, hids, ?_, ?_, ?_⟩
    · intro hc
      dsimp only at hc ⊢
      by_cases ha : s.active = 0
      · exact ⟨hq, ha⟩
      · rw [if_neg ha] at hc
        exact ⟨hq, (hdtor hc).2⟩
    · intro hc
      dsimp only at hc ⊢
      have hdn : s.owner = .done := by
        by_cases ha : s.active = 0
        · rw [if_pos ha] at hc; exact notifyAll_eq_done hc
        · rwa [if_neg ha] at hc
      have := hsdone hdn
      exact absurd hw (by omega)
    · intro hc
      dsimp only at hc ⊢
      apply hsflag
      by_cases ha : s.active = 0
      · rw [if_pos ha] at hc
        rcases hc with hc | hc
        · exact Or.inl (notifyAll_eq_dtorSignaled hc)
        · exact Or.inr (notifyAll_eq_done hc)
      · rwa [if_neg ha] at hc
  | finishRun t u l1 l2 rest hr ht hq =>
    rw [hq, hr] at hperm
    refine ⟨?_, ?_, hcrash, hids, ?_, ?_, ?_⟩
    · dsimp only
      rw [← Multiset.coe_eq_coe] at hperm ⊢
      simp only [← Multiset.coe_add, ← Multiset.cons_coe,
        ← Multiset.singleton_add] at hperm ⊢
      rw [hperm]; abel
    · dsimp only
      rw [hr] at hact
      simp only [List.length_cons, List.length_append] at hact ⊢
      omega
    · intro hc
      exact absurd (hdtor hc).1 (by simp [hq])
    · intro hc; exact hsdone hc
    · intro hc; exact hsflag hc
  | finishIdle t l1 l2 hr ht hq =>
    rw [hr] at hperm hact
    refine ⟨?_, ?_, hcrash, hids, ?_, ?_, ?_⟩
    · dsimp only
      rw [hq]
      rw [← Multiset.coe_eq_coe] at hperm ⊢
      rw [hq] at hperm
      simp only [← Multiset.coe_add, ← Multiset.cons_coe,
        ← Multiset.singleton_add] at hperm ⊢
      rw [hperm]; abel
    · dsimp only
      simp only [List.length_append, List.length_cons] at hact ⊢
      omega
    · intro hc
      dsimp only at hc ⊢
      by_cases hz : s.active - 1 = 0
      · exact ⟨hq, hz⟩
      · rw [if_neg hz] at hc
        have := (hdtor hc).2
        simp only [List.length_append, List.length_cons] at hact
        omega
    · intro hc
      dsimp only at hc ⊢
      have hdn : s.owner = .done := by
        by_cases hz : s.active - 1 = 0
        · rw [if_pos hz] at hc; exact notifyAll_eq_done hc
        · rwa [if_neg hz] at hc
      have := (hdtor (Or.inr (Or.inr hdn))).2
      simp only [List.length_append, List.length_cons] at hact
      omega
    · intro hc
      dsimp only at hc ⊢
      apply hsflag
      by_cases hz : s.active - 1 = 0
      · rw [if_pos hz] at hc
        rcases hc with hc | hc
        · exact Or.inl (notifyAll_eq_dtorSignaled hc)
        · exact Or.inr (notifyAll_eq_done hc)
      · rwa [if_neg hz] at hc
  | taskSubmit a0 a1 thr hr =>
    refine ⟨?_, hact, hcrash, ?_, ?_, ?_, ?_⟩
    · dsimp only
      rw [← Multiset.coe_eq_coe] at hperm ⊢
      simp only [← Multiset.coe_add, ← Multiset.cons_coe,
        ← Multiset.singleton_add] at hperm ⊢
      rw [hperm]; abel
    · dsimp only
      simp [hids, List.range_succ]
    · intro hc
      have := (hdtor hc).2
      have hlen : 0 < s.running.length := List.length_pos.mpr hr
      omega
    · intro hc; exact hsdone hc
    · intro hc; exact hsflag hc
  | taskThrow t l1 l2 hr ht =>
    rw [hr] at hperm hact
    refine ⟨?_, ?_, ?_, hids, ?_, ?_, ?_⟩
    · dsimp only
      rw [← Multiset.coe_eq_coe] at hperm ⊢
      simp only [← Multiset.coe_add, ← Multiset.cons_coe,
        ← Multiset.singleton_add] at hperm ⊢
      rw [hperm]; abel
    · dsimp only
      simp only [List.length_append, List.length_cons] at hact ⊢
      omega
    · dsimp only
      simp [hcrash]
    · intro hc
      have := (hdtor hc).2
      simp only [List.length_append, List.length_cons] at hact
      omega
    · intro hc; exact hsdone hc
    · intro hc; exact hsflag hc
  | dtorBlock hown hq =>
    refine ⟨hperm, hact, hcrash, hids, ?_, ?_, ?_⟩
    · intro hc; simp at hc
    · intro hc; simp at hc
    · intro hc; simp at hc
  | dtorImmediate hown hq ha =>
    refine ⟨hperm, hact, hcrash, hids, ?_, ?_, ?_⟩
    · intro _; exact ⟨hq, ha⟩
    · intro hc; simp at hc
    · intro hc; simp at hc
  | dtorSignal hown =>
    refine ⟨hperm, hact, hcrash, hids, ?_, ?_, ?_⟩
    · intro _; exact hdtor (Or.inl hown)
    · intro hc; simp at hc
    · intro _; rfl
  | dtorJoin hown hw hr =>
    refine ⟨hperm, hact, hcrash, hids, ?_, ?_, ?_⟩
    · intro _; exact hdtor (Or.inr (Or.inl hown))
    · intro _; exact hw
    · intro _; exact hsflag (Or.inl hown)

/-- Every reachable pool state satisfies the invariant. -/
theorem Reachable.inv {threads_amount : Nat} {s : thread_pool}
    (h : Reachable threads_amount s) : Inv s := by
  induction h with
  | refl => exact Inv.init threads_amount
  | tail _ hstep ih => exact ih.step hstep

/-- When the pool is quiescent (`task_queue` empty and `active = 0`), every
submitted task has completed: no worker is running (`active` counts them), no
worker has crashed, so nothing is failed, queued or running. -/
theorem quiescent_completed {s : thread_pool} (hi : Inv s)
    (hq : s.task_queue = []) (ha : s.active = 0) :
    s.pushed.Perm s.completed := by
  have hrun : s.running = [] := by
    have := hi.act
    rw [ha] at this
    exact List.eq_nil_of_length_eq_zero (by omega)
  have hfail : s.failed = [] := by
    have := hi.act
    have := hi.crash
    rw [ha] at *
    exact List.eq_nil_of_length_eq_zero (by omega)
  have := hi.perm
  rw [hq, hrun, hfail] at this
  simpa using this

/-- The only steps that return a blocked `wait()` to its caller are the
`wait_cv.notify_all` calls in the worker loop, and their guards hold exactly
when the pool is quiescent — at which point everything submitted has
completed. -/
theorem wait_return_perm {s s' : thread_pool} {n : Nat} (hi : Inv s)
    (hstep : Step s s') (hb : s.owner = .waitBlocked n)
    (hret : s'.owner = .idle) : s'.pushed.Perm s'.completed := by
  cases hstep with
  | push a0 a1 thr hown => rw [hown] at hb; simp at hb
  | waitCall hown hq => rw [hown] at hb; simp at hb
  | wakeRun t rest hw hq =>
    dsimp only at hret
    rw [hb] at hret; simp at hret
  | wakeIdle hw hq =>
    dsimp only at hret ⊢
    by_cases ha : s.active = 0
    · exact quiescent_completed hi hq ha
    · rw [if_neg ha, hb] at hret
      simp at hret
  | finishRun t u l1 l2 rest hr ht hq =>
    dsimp only at hret
    rw [hb] at hret; simp at hret
  | finishIdle t l1 l2 hr ht hq =>
    dsimp only at hret ⊢
    by_cases hz : s.active - 1 = 0
    · have hact := hi.act
      rw [hr] at hact
      simp only [List.length_append, List.length_cons] at hact
      have hl1 : l1 = [] := List.eq_nil_of_length_eq_zero (by omega)
      have hl2 : l2 = [] := List.eq_nil_of_length_eq_zero (by omega)
      have hnc : s.nCrashed = 0 := by omega
      have hfail : s.failed = [] :=
        List.eq_nil_of_length_eq_zero (by rw [hi.crash]; omega)
      have hperm := hi.perm
      rw [hq, hr, hl1, hl2, hfail] at hperm
      rw [← Multiset.coe_eq_coe] at hperm ⊢
      simp only [← Multiset.coe_add, ← Multiset.cons_coe,
        ← Multiset.singleton_add] at hperm ⊢
      rw [hperm]; abel
    · rw [if_neg hz, hb] at hret
      simp at hret
  | taskSubmit a0 a1 thr hr =>
    dsimp only at hret
    rw [hb] at hret; simp at hret
  | taskThrow t l1 l2 hr ht =>
    dsimp only at hret
    rw [hb] at hret; simp at hret
  | dtorBlock hown hq => rw [hown] at hb; simp at hb
  | dtorImmediate hown hq ha => rw [hown] at hb; simp at hb
  | dtorSignal hown => rw [hown] at hb; simp at hb
  | dtorJoin hown hw hr => rw [hown] at hb; simp at hb

/-! ### Steps and reachability of the concrete traces -/

theorem step_wtrace01 : Step (thread_pool.init 1) wtrace1 :=
  Step.push (thread_pool.init 1) 123 456 false rfl

theorem step_wtrace12 : Step wtrace1 wtrace2 :=
  Step.waitCall wtrace1 rfl (by decide)

theorem step_wtrace23 : Step wtrace2 wtrace3 :=
  Step.wakeRun wtrace2 wtask [] (by decide) rfl

theorem step_wtrace34 : Step wtrace3 wtrace4 :=
  Step.finishIdle wtrace3 wtask [] [] rfl rfl rfl

theorem reach_wtrace1 : Reachable 1 wtrace1 :=
  Reachable.tail Reachable.refl step_wtrace01

theorem reach_wtrace3 : Reachable 1 wtrace3 :=
  Reachable.tail (Reachable.tail reach_wtrace1 step_wtrace12) step_wtrace23

theorem step_dtrace01 : Step (thread_pool.init 1) dtrace1 :=
  Step.dtorImmediate (thread_pool.init 1) rfl rfl rfl

theorem step_dtrace12 : Step dtrace1 dtrace2 :=
  Step.dtorSignal dtrace1 rfl

theorem step_dtrace23 : Step dtrace2 dtrace3 :=
  Step.wakeIdle dtrace2 (by decide) rfl

theorem step_dtrace34 : Step dtrace3 dtrace4 :=
  Step.dtorJoin dtrace3 rfl rfl rfl

theorem reach_dtrace4 : Reachable 1 dtrace4 :=
  Reachable.tail (Reachable.tail (Reachable.tail
    (Reachable.tail Reachable.refl step_dtrace01) step_dtrace12) step_dtrace23)
    step_dtrace34

theorem step_ctrace01 : Step (thread_pool.init 1) ctrace1 :=
  Step.push (thread_pool.init 1) 0 0 true rfl

theorem step_ctrace12 : Step ctrace1 ctrace2 :=
  Step.wakeRun ctrace1 ctask [] (by decide) rfl

theorem step_ctrace23 : Step ctrace2 ctrace3 :=
  Step.taskThrow ctrace2 ctask [] [] rfl rfl

theorem reach_ctrace3 : Reachable 1 ctrace3 :=
  Reachable.tail (Reachable.tail (Reachable.tail Reachable.refl step_ctrace01)
    step_ctrace12) step_ctrace23

end mt

/-! ## Claim theorems for Parallel Sort -/

/-- C1: for every sequence, every strict-weak-order comparison predicate and
every thread count ≥ 1, `mt::sort` terminates with the range holding a
permutation of the input that is non-decreasing under `cmp`: for all adjacent
positions, `cmp result[i+1] result[i] = false`. -/
theorem C1_sort_perm_sorted {α : Type} (cmp : α → α → Bool) (h : mt.IsSWO cmp)
    (threads_amount : Nat) (ht : 1 ≤ threads_amount) (l : List α) :
    ∃ r, mt.sort cmp threads_amount l = some r ∧ r.Perm l
      ∧ r.Chain' (fun a b => cmp b a = false) := by
  obtain ⟨hperm, hpw⟩ :=
    mt.quick_sort_perm_pairwise h (l.length / (threads_amount * 8)) l.length l le_rfl
  refine ⟨_, ?_, hperm, hpw.chain'⟩
  rw [mt.sort, if_neg (by omega)]

/-- C1 witness: a concrete run of `mt::sort`. -/
theorem C1_sort_perm_sorted_witness :
    ∃ r, mt.sort (fun a b : Nat => decide (a < b)) 2 [3, 1, 2, 1] = some r ∧
      r.Perm [3, 1, 2, 1] ∧ r.Chain' (fun a b => decide (b < a) = false) :=
  C1_sort_perm_sorted (fun a b : Nat => decide (a < b)) mt.nat_lt_swo 2 (by omega)
    [3, 1, 2, 1]

/-- C9: the sorting function is idempotent at the level of a call's effect:
sorting the already-sorted output returns it unchanged elementwise.  This is
the intended per-call semantics.  Caveat about the actual source: `quick_sort`
is a function-local `static const std::function` capturing `chunk_size`,
`pool` and `cmp` of the FIRST call by reference (sort.hpp:76), so a literal
second C++ call through the same template instantiation reads those through
dangling references and pushes into a destroyed pool — undefined behaviour;
the embedding gives each call its own closure state, which is evidently the
intent. -/
theorem C9_sort_idempotent {α : Type} (cmp : α → α → Bool) (h : mt.IsSWO cmp)
    (threads_amount : Nat) (ht : 1 ≤ threads_amount) (l : List α) :
    ∃ r, mt.sort cmp threads_amount l = some r ∧
      mt.sort cmp threads_amount r = some r := by
  obtain ⟨hperm, hpw⟩ :=
    mt.quick_sort_perm_pairwise h (l.length / (threads_amount * 8)) l.length l le_rfl
  refine ⟨mt.quick_sort cmp (l.length / (threads_amount * 8)) l.length l, ?_, ?_⟩
  · rw [mt.sort, if_neg (by omega)]
  · rw [mt.sort, if_neg (by omega)]
    rw [mt.quick_sort_of_sorted h _ _ _ le_rfl hpw]

/-- C9 witness: a concrete double run of `mt::sort`. -/
theorem C9_sort_idempotent_witness :
    ∃ r, mt.sort (fun a b : Nat => decide (a < b)) 2 [3, 1, 2, 1] = some r ∧
      mt.sort (fun a b : Nat => decide (a < b)) 2 r = some r :=
  C9_sort_idempotent (fun a b : Nat => decide (a < b)) mt.nat_lt_swo 2 (by omega)
    [3, 1, 2, 1]

/-- C10: in every partition step taken on a range longer than the chunk-size
threshold, the equal-to-pivot middle section is non-empty (it contains at
least the pivot), so both submitted sub-ranges are strictly shorter than the
parent range; hence the recursive task tree is finite. -/
theorem C10_partition_shrinks {α : Type} (cmp : α → α → Bool)
    (hirr : ∀ a, cmp a a = false) (chunk_size : Nat) (l : List α)
    (_h1 : 1 < l.length) (_h2 : chunk_size < l.length) (pivot : α)
    (hp : l[l.length / 2]? = some pivot) :
    mt.midSection cmp pivot l ≠ []
      ∧ (mt.ltSection cmp pivot l).length < l.length
      ∧ (mt.gtSection cmp pivot l).length < l.length := by
  have hmem : pivot ∈ l := List.getElem?_mem hp
  exact ⟨List.ne_nil_of_mem (mt.pivot_mem_midSection (hirr pivot) hmem),
    mt.ltSection_length_lt (hirr pivot) hmem,
    mt.gtSection_length_lt (hirr pivot) hmem⟩

/-- C10 witness: a concrete partition step. -/
theorem C10_partition_shrinks_witness :
    mt.midSection (fun a b : Nat => decide (a < b)) 2 [5, 2, 9] ≠ []
      ∧ (mt.ltSection (fun a b : Nat => decide (a < b)) 2 [5, 2, 9]).length < 3
      ∧ (mt.gtSection (fun a b : Nat => decide (a < b)) 2 [5, 2, 9]).length < 3 := by
  have := C10_partition_shrinks (fun a b : Nat => decide (a < b))
    (by intro a; simp) 1 [5, 2, 9] (by decide) (by decide) 2 (by decide)
  simpa using this

/-! ## Claim theorems for Parallel Unique -/

/-- C2 evaluation (code bug): `mt::unique` deduplicates each chunk with
`std::unique(_begin, _end)` — plain `operator==` — and consults the caller's
equivalence predicate `p` only at chunk boundaries (unique.hpp:68 vs 75).
With `p` = "same parity" on the sorted-for-`p` range `[2, 4]` and one thread,
both elements survive adjacently although `p 2 4` holds, contradicting the
claimed "exactly one representative of each run of `p`-equivalent elements"
(the correct result would have length 1). -/
theorem C2_chunk_dedup_uses_eq_not_p :
    mt.unique (fun a b : Nat => a % 2 == b % 2) 1 [2, 4] = some [2, 4]
      ∧ ((fun a b : Nat => a % 2 == b % 2) 2 4) = true := by decide

/-- C6 evaluation (code bug): no thread-count validation exists anywhere.
`mt::sort` with `threads_amount = 0` divides by zero computing `chunk_size`
(sort.hpp:73); `mt::unique` with `threads_amount = 0` divides by zero
(unique.hpp:62) and indexes an empty vector (unique.hpp:71); `mt::unique`
with `threads_amount` exceeding the range length creates empty chunks and the
merge loop reads unspecified and out-of-range positions (unique.hpp:75).
All three are modelled as `none` — undefined behaviour is reached, no
validated rejection happens. -/
theorem C6_thread_count_not_validated :
    mt.sort (fun a b : Nat => decide (a < b)) 0 [3, 1] = none
      ∧ mt.unique (fun a b : Nat => a == b) 0 [1, 2] = none
      ∧ mt.unique (fun a b : Nat => a == b) 3 [1, 2] = none := by decide

/-- C7 counterexample: `unique` on an empty range still spawns one concurrent
execution per thread (the loop at unique.hpp:64 runs `threads_amount` times
unconditionally), refuting "performs no concurrent executions". -/
theorem C7_empty_range_spawns_executions :
    (mt.uniqueRuns 1 ([] : List Nat)).length ≠ 0 := by decide

/-- C7 amended: `unique` of an empty range with `threadCount = 1` returns the
range's begin (a zero-length result) and accesses no elements, but it does
spawn `threadCount` concurrent executions, each over an empty chunk. -/
theorem C7_empty_range_result (α : Type) [DecidableEq α] (p : α → α → Bool) :
    mt.unique p 1 ([] : List α) = some []
      ∧ (mt.uniqueRuns 1 ([] : List α)).length = 1 :=
  ⟨rfl, rfl⟩

/-- C7 witness: the amended statement at a concrete element type and
predicate. -/
theorem C7_empty_range_result_witness :
    mt.unique (fun a b : Nat => a == b) 1 ([] : List Nat) = some []
      ∧ (mt.uniqueRuns 1 ([] : List Nat)).length = 1 :=
  C7_empty_range_result Nat (fun a b => a == b)

/-! ## Claim theorems for the Worker Pool -/

/-- C3: `wait()` is a quiescence barrier.  First conjunct: when the pool is
quiescent (queue empty and `active = 0`) — the case in which `wait()` returns
immediately (thread_pool.hpp:97) — every task ever submitted, including
recursively submitted ones, has completed.  Second conjunct: a blocked
`wait()` call returns only via a step whose guard is quiescence
(`wait_cv.notify_all` at thread_pool.hpp:144), and at that return every
submitted task has completed; it never returns while a task is pending or
running. -/
theorem C3_wait_quiescence_barrier (threads_amount n : Nat)
    (s s' : mt.thread_pool) (hr : mt.Reachable threads_amount s) :
    (s.task_queue = [] ∧ s.active = 0 → ∀ t ∈ s.pushed, t ∈ s.completed)
    ∧ (mt.Step s s' → s.owner = .waitBlocked n → s'.owner = .idle →
        ∀ t ∈ s'.pushed, t ∈ s'.completed) := by
  constructor
  · rintro ⟨hq, ha⟩ t ht
    exact (mt.quiescent_completed hr.inv hq ha).mem_iff.mp ht
  · intro hstep hb hret t ht
    exact (mt.wait_return_perm hr.inv hstep hb hret).mem_iff.mp ht

/-- C3 witness: the concrete one-worker trace (push, wait blocks, worker runs
the task, wait returns): the submitted task has completed at the return. -/
theorem C3_wait_quiescence_barrier_witness :
    mt.wtask ∈ mt.wtrace4.completed :=
  (C3_wait_quiescence_barrier 1 1 mt.wtrace3 mt.wtrace4 mt.reach_wtrace3).2
    mt.step_wtrace34 rfl rfl mt.wtask (by decide)

/-- C4: teardown safety.  Once the destructor has completed (owner `done`),
the task queue is empty, no worker is running a task, every worker thread has
exited (none is still waiting, none crashed), the shutdown flag is set, and
every task ever submitted has completed — teardown never completes while any
task, including recursively spawned ones, is pending or running, and never
before all worker threads have exited. -/
theorem C4_teardown_drains_and_joins (threads_amount : Nat)
    (s : mt.thread_pool) (hr : mt.Reachable threads_amount s)
    (hd : s.owner = .done) :
    s.task_queue = [] ∧ s.running = [] ∧ s.nWaiting = 0 ∧ s.nCrashed = 0
      ∧ s.shutdown_request = true ∧ s.pushed.Perm s.completed := by
  have hi := hr.inv
  obtain ⟨hq, ha⟩ := hi.dtor (Or.inr (Or.inr hd))
  have hact := hi.act
  rw [ha] at hact
  have hrun : s.running = [] := List.eq_nil_of_length_eq_zero (by omega)
  have hnc : s.nCrashed = 0 := by omega
  exact ⟨hq, hrun, hi.sdone hd, hnc, hi.sflag (Or.inr hd),
    mt.quiescent_completed hi hq ha⟩

/-- C4 witness: the concrete one-worker destruction trace. -/
theorem C4_teardown_drains_and_joins_witness :
    mt.dtrace4.task_queue = [] ∧ mt.dtrace4.running = []
      ∧ mt.dtrace4.nWaiting = 0 ∧ mt.dtrace4.nCrashed = 0
      ∧ mt.dtrace4.shutdown_request = true
      ∧ mt.dtrace4.pushed.Perm mt.dtrace4.completed :=
  C4_teardown_drains_and_joins 1 mt.dtrace4 mt.reach_dtrace4 rfl

/-- C5 evaluation (code bug): a throwing task is NOT caught at the
task-execution boundary — `task()` at thread_pool.hpp:137 has no handler.
The concrete trace: one worker, one throwing task.  Afterwards the worker is
gone (`nCrashed = 1`), and although nothing is queued or running, `active` is
permanently stuck at 1 (the unwinding skipped the decrement at
thread_pool.hpp:140): no further step can restore it, so the pool never again
reaches quiescence and a subsequent `wait()` blocks forever. -/
theorem C5_throwing_task_corrupts_pool :
    mt.Reachable 1 mt.ctrace3
      ∧ mt.ctrace3.nCrashed = 1 ∧ mt.ctrace3.failed = [mt.ctask]
      ∧ mt.ctrace3.task_queue = [] ∧ mt.ctrace3.running = []
      ∧ mt.ctrace3.active = 1
      ∧ (∀ s', mt.Step mt.ctrace3 s' → s'.active = 1 ∧ s'.nCrashed = 1) := by
  refine ⟨mt.reach_ctrace3, rfl, rfl, rfl, rfl, rfl, ?_⟩
  intro s' hstep
  cases hstep with
  | push a0 a1 thr hown => exact ⟨rfl, rfl⟩
  | waitCall hown hq => exact ⟨rfl, rfl⟩
  | wakeRun t rest hw hq => exact absurd hw (by decide)
  | wakeIdle hw hq => exact absurd hw (by decide)
  | finishRun t u l1 l2 rest hr2 ht hq => simp [mt.ctrace3] at hr2
  | finishIdle t l1 l2 hr2 ht hq => simp [mt.ctrace3] at hr2
  | taskSubmit a0 a1 thr hrn => exact absurd rfl hrn
  | taskThrow t l1 l2 hr2 ht => simp [mt.ctrace3] at hr2
  | dtorBlock hown hq => exact ⟨rfl, rfl⟩
  | dtorImmediate hown hq ha => exact absurd ha (by decide)
  | dtorSignal hown => exact absurd hown (by decide)
  | dtorJoin hown hw hrn => exact absurd hown (by decide)

/-- C8: submission and execution.  First conjunct: in every reachable state,
no task has been executed twice (completed task identifiers are distinct) and
every executed task is one that was submitted, with exactly the argument
values bound at submission (`completed` holds the very task records from
`pushed`).  Second conjunct: by the time a blocked `wait()` returns, the
submitted tasks and the completed executions agree as multisets — each
submitted task was executed exactly once, observing its arguments unchanged.
Third conjunct: submission never waits — on a live pool (owner not inside a
blocking call) the `push` step is enabled regardless of the pool's state. -/
theorem C8_submit_exactly_once (threads_amount n : Nat)
    (s s' : mt.thread_pool) (hr : mt.Reachable threads_amount s) :
    ((s.completed.map mt.Task.id).Nodup ∧ ∀ t ∈ s.completed, t ∈ s.pushed)
    ∧ (mt.Step s s' → s.owner = .waitBlocked n → s'.owner = .idle →
        s'.pushed.Perm s'.completed)
    ∧ (∀ a0 a1 thr, s.owner = .idle →
        mt.Step s { s with
          task_queue := s.task_queue ++ [⟨s.nextId, a0, a1, thr⟩],
          pushed := s.pushed ++ [⟨s.nextId, a0, a1, thr⟩],
          nextId := s.nextId + 1 }) := by
  have hi := hr.inv
  refine ⟨⟨?_, ?_⟩, ?_, ?_⟩
  · have hnod : (s.pushed.map mt.Task.id).Nodup := by
      rw [hi.ids]; exact List.nodup_range s.nextId
    have hmap := hi.perm.map mt.Task.id
    rw [List.map_append, List.map_append, List.map_append] at hmap
    have hnod2 := hmap.nodup_iff.mp hnod
    exact ((hnod2.of_append_left).of_append_left).of_append_left
  · intro t ht
    exact hi.perm.mem_iff.mpr (by simp [ht])
  · intro hstep hb hret
    exact mt.wait_return_perm hi hstep hb hret
  · intro a0 a1 thr hown
    exact mt.Step.push s a0 a1 thr hown

/-- C8 witness: the concrete trace — the task `(123, 456)` is executed
exactly once with its arguments, and a push is enabled on the live pool. -/
theorem C8_submit_exactly_once_witness :
    mt.wtrace4.pushed.Perm mt.wtrace4.completed
      ∧ mt.Step mt.wtrace1 { mt.wtrace1 with
          task_queue := mt.wtrace1.task_queue ++ [⟨mt.wtrace1.nextId, 7, 9, false⟩],
          pushed := mt.wtrace1.pushed ++ [⟨mt.wtrace1.nextId, 7, 9, false⟩],
          nextId := mt.wtrace1.nextId + 1 } :=
  ⟨(C8_submit_exactly_once 1 1 mt.wtrace3 mt.wtrace4 mt.reach_wtrace3).2.1
      mt.step_wtrace34 rfl rfl,
    (C8_submit_exactly_once 1 0 mt.wtrace1 mt.wtrace1 mt.reach_wtrace1).2.2
      7 9 false rfl⟩
